import Mathlib

/-!
Verification model of `cargo-jump` (`src/main.rs`): a tool that sets the
version of every workspace package whose directory contains a changed file,
then refreshes the lockfile when at least one manifest was written.

The model is a shallow embedding of `main`:

* file paths are component lists, as compared by `std::path::Path::starts_with`;
* the affected-set computation (`main.rs` lines 115-130) is `resolveAffected`;
* the manifest rewrite (`main.rs` lines 144-163) is `applyWrite`, built on a
  decor-preserving line-structured TOML document model of how `toml_edit`
  behaves for the single operation the tool performs: locate the `version`
  key of the `[package]` table and replace its item by
  `toml_edit::value(new_version)` (a freshly formatted value whose decor is
  the default: one space after `=`, nothing between value and end of line);
* the run orchestration (`main.rs` lines 88-175) is `runJump`, which records
  an event trace (manifest reads, manifest writes, the lockfile refresh) and
  aborts with a `RunError` where the binary panics.
-/

namespace CargoJump

/-! ## Filesystem paths

Rust `Path`s are modelled by their component lists, matching
`std::path::Path::components`; `Path::starts_with` is component-wise
comparison and `Path::parent` drops the last component. -/

abbrev FsPath := List String

/-- Split a character list at every occurrence of `sep`.  Inverse of
`joinLines` (for `sep = '\n'`) on separator-free chunks. -/
def splitOnChar (sep : Char) : List Char → List (List Char)
  | [] => [[]]
  | c :: t =>
    let r := splitOnChar sep t
    if c = sep then [] :: r else (c :: r.headD []) :: r.tail

/-- Path components of a raw path string: split on `/`, drop empty segments,
the way `std::path::Path::components` normalises the paths this tool sees. -/
def pathComponents (s : String) : FsPath :=
  ((splitOnChar '/' s.data).filter (fun l => l ≠ [])).map (fun l => String.mk l)

/-- A workspace member as reported by the workspace inventory
(`cargo metadata`): a name and the location of its `Cargo.toml`. -/
structure Package where
  name : String
  manifestPath : FsPath
deriving DecidableEq

/-- The package directory: parent of the manifest path
(`manifest_path.parent()`, `main.rs` line 118-120). -/
def manifestDir (p : Package) : FsPath := p.manifestPath.dropLast

/-- `changed_file.starts_with(manifest_dir)` (`main.rs` line 123):
`Path::starts_with`, i.e. component-wise prefix. -/
def fileWithinDir (f d : FsPath) : Bool := d.isPrefixOf f

/-- The affected-set resolver (`main.rs` lines 115-130): keep, in input
order, every package such that some changed file starts with its
directory. -/
def resolveAffected (changed : List FsPath) (pkgs : List Package) : List Package :=
  pkgs.filter (fun p => changed.any (fun f => fileWithinDir f (manifestDir p)))

/-! ## Decor-preserving TOML document model

`toml_edit::DocumentMut` preserves all formatting; the only mutation the
tool performs is replacing the `version` item of the `[package]` table.  We
model the document as its list of physical lines.  Each line is either a
blank/comment line, a `[name]` table header, or a `key = value` pair split
into its exact decor pieces, so that rendering concatenates the pieces back
to the original text (`renderLine_parseLine`). -/

/-- A `key = value` line, split into exact byte pieces:
`lead ++ key ++ afterKey ++ "=" ++ beforeVal ++ valRepr ++ trailing`.
`beforeVal`, `valRepr` and `trailing` together are the `toml_edit` item
(value decor prefix, value representation, value decor suffix: the trailing
whitespace and comment of the line belong to the value's decor). -/
structure KeyVal where
  lead : List Char
  key : List Char
  afterKey : List Char
  beforeVal : List Char
  valRepr : List Char
  trailing : List Char
deriving DecidableEq

/-- One physical line of a TOML document. -/
inductive Line where
  | blank (raw : List Char)
  | header (lead : List Char) (name : List Char) (trailing : List Char)
  | kv (k : KeyVal)
deriving DecidableEq

def renderKV (k : KeyVal) : List Char :=
  k.lead ++ k.key ++ k.afterKey ++ '=' :: (k.beforeVal ++ k.valRepr ++ k.trailing)

def renderLine : Line → List Char
  | .blank raw => raw
  | .header lead name trailing => lead ++ '[' :: (name ++ ']' :: trailing)
  | .kv k => renderKV k

/-- TOML inline whitespace. -/
def isWs (c : Char) : Bool := c == ' ' || c == '\t'

/-- Characters that may continue a key token (model: bare keys). -/
def keyChar (c : Char) : Bool := !(isWs c) && c != '='

/-- Characters of an unquoted value representation (model: stop at
whitespace or a trailing comment). -/
def unquotedChar (c : Char) : Bool := !(isWs c) && c != '#'

/-- Split the text of a value (whitespace already stripped) into the value
representation and its trailing decor: a basic string runs to its closing
quote, any other value to the first whitespace or comment. -/
def splitVal (vrest : List Char) : List Char × List Char :=
  if vrest.headD ' ' = '"' then
    let vr := vrest.tail
    let dr := vr.dropWhile (fun x => x != '"')
    if dr = [] then (vrest, [])
    else ('"' :: (vr.takeWhile (fun x => x != '"') ++ ['"']), dr.tail)
  else (vrest.takeWhile unquotedChar, vrest.dropWhile unquotedChar)

/-- Parse one physical line, keeping every byte in some piece, so that
`renderLine` is a left inverse. -/
def parseLine (cs : List Char) : Line :=
  let rest := cs.dropWhile isWs
  if rest = [] then .blank cs
  else if rest.headD ' ' = '#' then .blank cs
  else if rest.headD ' ' = '[' then
    let dr := rest.tail.dropWhile (fun x => x != ']')
    if dr = [] then .blank cs
    else .header (cs.takeWhile isWs) (rest.tail.takeWhile (fun x => x != ']')) dr.tail
  else
    let de := cs.dropWhile (fun x => x != '=')
    if de = [] then .blank cs
    else
      let keyPart := cs.takeWhile (fun x => x != '=')
      let keyTail := keyPart.dropWhile isWs
      let v := splitVal (de.tail.dropWhile isWs)
      .kv ⟨keyPart.takeWhile isWs, keyTail.takeWhile keyChar, keyTail.dropWhile keyChar,
           de.tail.takeWhile isWs, v.1, v.2⟩

def joinAux (ls : List (List Char)) : List Char :=
  ls.foldr (fun l acc => '\n' :: (l ++ acc)) []

/-- Join physical lines with newlines (inverse of `splitOnChar '\n'`). -/
def joinLines : List (List Char) → List Char
  | [] => []
  | l :: ls => l ++ joinAux ls

def parseDoc (cs : List Char) : List Line := (splitOnChar '\n' cs).map parseLine

def renderDoc (d : List Line) : List Char := joinLines (d.map renderLine)

/-- Strip inline whitespace from both ends (table-name comparison:
`[ package ]` names the table `package`). -/
def stripEndsWs (l : List Char) : List Char :=
  ((l.dropWhile isWs).reverse.dropWhile isWs).reverse

def lineIsAnyHeader : Line → Bool
  | .header _ _ _ => true
  | _ => false

/-- Is this line the `[package]` table header? -/
def lineIsPackageHeader : Line → Bool
  | .header _ name _ => stripEndsWs name = "package".data
  | _ => false

/-- Is this line a `version = …` key-value pair? -/
def lineIsVersionKV : Line → Bool
  | .kv k => k.key = "version".data
  | _ => false

/-- The key-value pieces of a line, when it is one. -/
def lineKV : Line → Option KeyVal
  | .kv k => some k
  | _ => none

/-- Locate the `version` key of the `[package]` table: the first
`version` key-value line strictly between the first `[package]` header and
the next table header.  Returns the lines before, the key-value pieces, and
the lines after; `none` models the two `expect`s of `main.rs` lines 149-155
(missing `[package]`, missing `package.version`). -/
def locateVersion (d : List Line) : Option (List Line × KeyVal × List Line) :=
  let pre := d.takeWhile (fun l => !(lineIsPackageHeader l))
  let rest := d.dropWhile (fun l => !(lineIsPackageHeader l))
  if rest = [] then none
  else
    let body := rest.tail
    let sec := body.takeWhile (fun l => !(lineIsAnyHeader l))
    let post := body.dropWhile (fun l => !(lineIsAnyHeader l))
    let s2 := sec.dropWhile (fun l => !(lineIsVersionKV l))
    (lineKV (s2.headD (.blank []))).map (fun k =>
      (pre ++ rest.headD (.blank []) :: sec.takeWhile (fun l => !(lineIsVersionKV l)),
       k, s2.tail ++ post))

/-- The representation `toml_edit::value` gives a version string (a basic
string; the model assumes the version needs no escaping). -/
def quoteStr (v : List Char) : List Char := '"' :: (v ++ ['"'])

/-- Replace the version item by `toml_edit::value v`: the key and its decor
are kept, the value pieces are replaced by the default-decor formatted
value (one space after `=`, nothing before the end of the line). -/
def setKV (v : List Char) (k : KeyVal) : KeyVal :=
  { k with beforeVal := [' '], valRepr := quoteStr v, trailing := [] }

/-- `main.rs` lines 149-156: find `package.version` and replace its item. -/
def setVer (v : List Char) (d : List Line) : Option (List Line) :=
  (locateVersion d).map (fun x => x.1 ++ Line.kv (setKV v x.2.1) :: x.2.2)

/-- The whole manifest rewrite of one package (`main.rs` lines 145-160):
parse the file, set `package.version`, serialise. -/
def applyWrite (v : List Char) (s : List Char) : Option (List Char) :=
  (setVer v (parseDoc s)).map renderDoc

/-! ## Orchestration

`runJump` is the body of `main` after the external collaborators (git,
`cargo metadata`) have answered: it receives the changed files, the
workspace members, the current filesystem and whether `cargo fetch` would
succeed, and returns the observable event trace together with either the
final filesystem or the error on which the binary panics. -/

/-- File contents, addressed by component paths. -/
abbrev FS := FsPath → List Char

def fsWrite (fs : FS) (p : FsPath) (c : List Char) : FS :=
  fun q => if q = p then c else fs q

/-- Observable filesystem / process events of a run. -/
inductive Ev where
  | readManifest (p : FsPath)
  | writeManifest (p : FsPath) (content : List Char)
  | refreshLock
deriving DecidableEq

/-- Fatal conditions of the per-package loop and of the refresh step. -/
inductive RunError where
  | malformedManifest (pkg : String)
  | refreshFailed
deriving DecidableEq

/-- The per-package loop (`main.rs` lines 139-164).  For each affected
package: read and parse its manifest, set the version; on a malformed
manifest the run panics (no later package is touched); on `dry_run` nothing
is written and `has_change` is left untouched; otherwise the serialised
document is written back and `has_change` becomes true. -/
def processPackages (v : List Char) (dryRun : Bool) :
    List Package → FS → List Ev × Except RunError (FS × Bool)
  | [], fs => ([], .ok (fs, false))
  | p :: rest, fs =>
    match setVer v (parseDoc (fs p.manifestPath)) with
    | none => ([.readManifest p.manifestPath], .error (.malformedManifest p.name))
    | some d =>
      if dryRun then
        let r := processPackages v dryRun rest fs
        (.readManifest p.manifestPath :: r.1, r.2)
      else
        let out := renderDoc d
        let r := processPackages v dryRun rest (fsWrite fs p.manifestPath out)
        (.readManifest p.manifestPath :: .writeManifest p.manifestPath out :: r.1,
         match r.2 with
         | .error e => .error e
         | .ok (fs', _) => .ok (fs', true))

/-- The run (`main.rs` lines 115-175): resolve the affected set; an empty
set short-circuits to a no-op; otherwise run the per-package loop, and when
any write happened invoke `cargo fetch` exactly once, whose failure is
fatal. -/
def runJump (v : List Char) (dryRun : Bool) (changed : List FsPath)
    (pkgs : List Package) (fs : FS) (refreshOk : Bool) :
    List Ev × Except RunError FS :=
  let affected := resolveAffected changed pkgs
  if affected.isEmpty then ([], .ok fs)
  else
    let r := processPackages v dryRun affected fs
    match r.2 with
    | .error e => (r.1, .error e)
    | .ok (fs', hasChange) =>
      if hasChange then
        if refreshOk then (r.1 ++ [.refreshLock], .ok fs')
        else (r.1 ++ [.refreshLock], .error .refreshFailed)
      else (r.1, .ok fs')

/-! ## Concrete sample data (used by the closed instances below) -/

def verTwo : List Char := ("2.0.0").data

def verNew : List Char := ("1.2.3").data

def sampleManifest : List Char := ("[package]\nname = \"a\"\nversion = \"0.1.0\"\n").data

def sampleManifestWritten : List Char := ("[package]\nname = \"a\"\nversion = \"2.0.0\"\n").data

def sampleManifestCommented : List Char :=
  ("[package]\nname = \"a\"\nversion = \"0.1.0\" # keep\n\n[dependencies]\nserde = \"1\"\n").data

def sampleManifestCommentedOut : List Char :=
  ("[package]\nname = \"a\"\nversion = \"1.2.3\"\n\n[dependencies]\nserde = \"1\"\n").data

def sampleManifestAtTwo : List Char := ("[package]\nversion = \"2.0.0\"\n").data

def badManifest : List Char := ("[dependencies]\nserde = \"1\"\n").data

def pkgA : Package := ⟨"a", ["ws", "a", "Cargo.toml"]⟩

def pkgB : Package := ⟨"b", ["ws", "b", "Cargo.toml"]⟩

def pkgC : Package := ⟨"c", ["ws", "c", "Cargo.toml"]⟩

def sampleFS : FS := fun q =>
  if q = ["ws", "a", "Cargo.toml"] then sampleManifest
  else if q = ["ws", "b", "Cargo.toml"] then badManifest
  else if q = ["ws", "c", "Cargo.toml"] then sampleManifest
  else []

def sampleFS2 : FS := fun q =>
  if q = ["ws", "a", "Cargo.toml"] then sampleManifestAtTwo else []

def changedA : List FsPath := [["ws", "a", "src", "lib.rs"]]

def changedABC : List FsPath := [["ws", "a", "x"], ["ws", "b", "x"], ["ws", "c", "x"]]

/-! ## Helper lemmas: splitting and joining lines -/

theorem splitOnChar_nil (sep : Char) : splitOnChar sep [] = [[]] := rfl

theorem splitOnChar_cons (sep c : Char) (t : List Char) :
    splitOnChar sep (c :: t) =
      if c = sep then [] :: splitOnChar sep t
      else (c :: (splitOnChar sep t).headD []) :: (splitOnChar sep t).tail := rfl

theorem splitOnChar_ne_nil (sep : Char) (cs : List Char) : splitOnChar sep cs ≠ [] := by
  induction cs with
  | nil => simp [splitOnChar_nil]
  | cons c t ih =>
    rw [splitOnChar_cons]
    split <;> simp

theorem not_mem_of_mem_splitOnChar (sep : Char) (cs : List Char) :
    ∀ l ∈ splitOnChar sep cs, sep ∉ l := by
  induction cs with
  | nil => simp [splitOnChar_nil]
  | cons c t ih =>
    intro l hl
    rw [splitOnChar_cons] at hl
    rcases hsplit : splitOnChar sep t with _ | ⟨x, xs⟩
    · exact absurd hsplit (splitOnChar_ne_nil sep t)
    · rw [hsplit] at hl
      have hx : x ∈ splitOnChar sep t := by rw [hsplit]; exact List.mem_cons_self x xs
      by_cases hc : c = sep
      · rw [if_pos hc, List.mem_cons] at hl
        rcases hl with hl | hl
        · subst hl; simp
        · exact ih l (by rw [hsplit]; exact hl)
      · rw [if_neg hc] at hl
        simp only [List.headD_cons, List.tail_cons] at hl
        rw [List.mem_cons] at hl
        rcases hl with hl | hl
        · subst hl
          intro hmem
          rw [List.mem_cons] at hmem
          rcases hmem with hmem | hmem
          · exact hc hmem.symm
          · exact ih x hx hmem
        · exact ih l (by rw [hsplit]; exact List.mem_cons_of_mem x hl)

theorem joinAux_nil : joinAux [] = [] := rfl

theorem joinAux_cons (l : List Char) (ls : List (List Char)) :
    joinAux (l :: ls) = '\n' :: (l ++ joinAux ls) := rfl

theorem joinLines_nil : joinLines [] = [] := rfl

theorem joinLines_cons (l : List Char) (ls : List (List Char)) :
    joinLines (l :: ls) = l ++ joinAux ls := rfl

theorem joinAux_append (a b : List (List Char)) :
    joinAux (a ++ b) = joinAux a ++ joinAux b := by
  induction a with
  | nil => simp [joinAux_nil]
  | cons x xs ih => simp [joinAux_cons, ih]

theorem joinAux_eq_cons_joinLines (l : List Char) (ls : List (List Char)) :
    joinAux (l :: ls) = '\n' :: joinLines (l :: ls) := rfl

theorem joinLines_splitOnChar (cs : List Char) :
    joinLines (splitOnChar '\n' cs) = cs := by
  induction cs with
  | nil => rfl
  | cons c t ih =>
    rw [splitOnChar_cons]
    rcases hsplit : splitOnChar '\n' t with _ | ⟨x, xs⟩
    · exact absurd hsplit (splitOnChar_ne_nil _ t)
    · rw [hsplit] at ih
      split
      · rename_i hc
        subst hc
        rw [joinLines_cons, joinAux_eq_cons_joinLines, ih]
        rfl
      · simp only [List.headD_cons, List.tail_cons]
        rw [joinLines_cons] at ih ⊢
        simp [ih]

theorem splitOnChar_of_not_mem {sep : Char} {cs : List Char} (h : sep ∉ cs) :
    splitOnChar sep cs = [cs] := by
  induction cs with
  | nil => rfl
  | cons c t ih =>
    rw [splitOnChar_cons,
      if_neg (by rintro rfl; exact h (List.mem_cons_self c t)),
      ih (fun hm => h (List.mem_cons_of_mem c hm))]
    rfl

theorem splitOnChar_append_sep {sep : Char} {a : List Char} (r : List Char)
    (h : sep ∉ a) : splitOnChar sep (a ++ sep :: r) = a :: splitOnChar sep r := by
  induction a with
  | nil =>
    rw [List.nil_append, splitOnChar_cons, if_pos rfl]
  | cons c t ih =>
    rw [List.cons_append, splitOnChar_cons,
      if_neg (by rintro rfl; exact h (List.mem_cons_self c t)),
      ih (fun hm => h (List.mem_cons_of_mem c hm))]
    rfl

theorem splitOnChar_joinLines (ls : List (List Char)) (hne : ls ≠ [])
    (h : ∀ l ∈ ls, '\n' ∉ l) : splitOnChar '\n' (joinLines ls) = ls := by
  induction ls with
  | nil => exact absurd rfl hne
  | cons x xs ih =>
    rcases xs with _ | ⟨y, ys⟩
    · rw [joinLines_cons, joinAux_nil, List.append_nil]
      exact splitOnChar_of_not_mem (h x (List.mem_cons_self x _))
    · have hx : '\n' ∉ x := h x (List.mem_cons_self x _)
      have hrest : ∀ l ∈ y :: ys, '\n' ∉ l := fun l hl => h l (List.mem_cons_of_mem x hl)
      rw [joinLines_cons, joinAux_eq_cons_joinLines, splitOnChar_append_sep _ hx,
        ih (by simp) hrest]

/-! ## Helper lemmas: takeWhile and dropWhile -/

theorem head_dropWhile_false {α} {p : α → Bool} {l : List α} {c : α} {t : List α}
    (h : l.dropWhile p = c :: t) : p c = false := by
  have := List.head_dropWhile_not p l
  rw [h] at this
  simpa using this

theorem takeWhile_all {α} {p : α → Bool} {l : List α} (h : ∀ x ∈ l, p x = true) :
    l.takeWhile p = l := by
  induction l with
  | nil => rfl
  | cons c t ih =>
    rw [List.takeWhile_cons, if_pos (h c (List.mem_cons_self c t))]
    rw [ih (fun x hx => h x (List.mem_cons_of_mem c hx))]

theorem dropWhile_all {α} {p : α → Bool} {l : List α} (h : ∀ x ∈ l, p x = true) :
    l.dropWhile p = [] := by
  induction l with
  | nil => rfl
  | cons c t ih =>
    rw [List.dropWhile_cons, if_pos (h c (List.mem_cons_self c t))]
    exact ih (fun x hx => h x (List.mem_cons_of_mem c hx))

/-- Splitting a list at the first failure of `p`, when the failure point is
known: `takeWhile` keeps exactly `a` and `dropWhile` keeps exactly `b`. -/
theorem takeWhile_dropWhile_split {α} {p : α → Bool} {a b : List α}
    (ha : ∀ y ∈ a, p y = true)
    (hb : b = [] ∨ ∃ x t, b = x :: t ∧ p x = false) :
    (a ++ b).takeWhile p = a ∧ (a ++ b).dropWhile p = b := by
  rcases hb with rfl | ⟨x, t, rfl, hx⟩
  · rw [List.append_nil]
    exact ⟨takeWhile_all ha, dropWhile_all ha⟩
  · constructor
    · rw [List.takeWhile_append_of_pos ha, List.takeWhile_cons, if_neg (by simp [hx])]
      rw [List.append_nil]
    · rw [List.dropWhile_append_of_pos ha, List.dropWhile_cons, if_neg (by simp [hx])]

theorem mem_of_mem_takeWhile {α} {p : α → Bool} {l : List α} {x : α}
    (h : x ∈ l.takeWhile p) : x ∈ l :=
  (List.takeWhile_sublist p).subset h

theorem mem_of_mem_dropWhile {α} {p : α → Bool} {l : List α} {x : α}
    (h : x ∈ l.dropWhile p) : x ∈ l :=
  (List.dropWhile_sublist p).subset h

/-! ## Helper lemmas: one line round-trips -/

theorem splitVal_append (vrest : List Char) :
    (splitVal vrest).1 ++ (splitVal vrest).2 = vrest := by
  unfold splitVal
  by_cases h : vrest.headD ' ' = '"'
  · rw [if_pos h]
    rcases vrest with _ | ⟨c, vr⟩
    · simp at h
    · simp only [List.headD_cons] at h
      subst h
      simp only [List.tail_cons]
      rcases hd : vr.dropWhile (fun x => x != '"') with _ | ⟨x, tr⟩
      · simp
      · have hx : x = '"' := by simpa using head_dropWhile_false hd
        subst hx
        rw [if_neg (by simp), List.tail_cons]
        have h2 := List.takeWhile_append_dropWhile (p := fun x => x != '"') (l := vr)
        rw [hd] at h2
        simp only [List.cons_append, List.append_assoc, List.singleton_append, List.nil_append]
        rw [h2]
  · rw [if_neg h]
    exact List.takeWhile_append_dropWhile _ _

theorem renderLine_parseLine (cs : List Char) : renderLine (parseLine cs) = cs := by
  unfold parseLine
  rcases hdw : cs.dropWhile isWs with _ | ⟨c, r⟩
  · simp [renderLine]
  · rw [if_neg (by simp)]
    simp only [List.headD_cons, List.tail_cons]
    by_cases hc : c = '#'
    · simp [hc, renderLine]
    · rw [if_neg hc]
      by_cases hbr : c = '['
      · rw [if_pos hbr]
        rcases hdr : r.dropWhile (fun x => x != ']') with _ | ⟨x, tr⟩
        · simp [renderLine]
        · have hx : x = ']' := by simpa using head_dropWhile_false hdr
          subst hx
          rw [if_neg (by simp), List.tail_cons]
          simp only [renderLine]
          have h1 : cs.takeWhile isWs ++ cs.dropWhile isWs = cs :=
            List.takeWhile_append_dropWhile _ _
          rw [hdw, hbr] at h1
          have h2 : r.takeWhile (fun x => x != ']') ++ r.dropWhile (fun x => x != ']') = r :=
            List.takeWhile_append_dropWhile _ _
          rw [hdr] at h2
          conv_rhs => rw [← h1]
          conv_rhs => rw [← h2]
      · rw [if_neg hbr]
        rcases hde : cs.dropWhile (fun x => x != '=') with _ | ⟨y, afterEq⟩
        · simp [renderLine]
        · have hy : y = '=' := by simpa using head_dropWhile_false hde
          subst hy
          rw [if_neg (by simp)]
          simp only [renderLine, renderKV, List.tail_cons]
          have h1 : cs.takeWhile (fun x => x != '=') ++ '=' :: afterEq = cs := by
            have := List.takeWhile_append_dropWhile (p := fun x => x != '=') (l := cs)
            rw [hde] at this
            exact this
          have h2 : (cs.takeWhile (fun x => x != '=')).takeWhile isWs ++
              (cs.takeWhile (fun x => x != '=')).dropWhile isWs
              = cs.takeWhile (fun x => x != '=') :=
            List.takeWhile_append_dropWhile _ _
          have h3 : ((cs.takeWhile (fun x => x != '=')).dropWhile isWs).takeWhile keyChar ++
              ((cs.takeWhile (fun x => x != '=')).dropWhile isWs).dropWhile keyChar
              = (cs.takeWhile (fun x => x != '=')).dropWhile isWs :=
            List.takeWhile_append_dropWhile _ _
          have h4 : afterEq.takeWhile isWs ++ afterEq.dropWhile isWs = afterEq :=
            List.takeWhile_append_dropWhile _ _
          have h5 := splitVal_append (afterEq.dropWhile isWs)
          conv_rhs => rw [← h1]
          simp only [List.append_assoc, List.cons_append]
          rw [h5, h4]
          conv_rhs => rw [← h2, ← h3]
          simp only [List.append_assoc]

theorem renderDoc_parseDoc (cs : List Char) : renderDoc (parseDoc cs) = cs := by
  unfold renderDoc parseDoc
  rw [List.map_map]
  have hmap : (splitOnChar '\n' cs).map (renderLine ∘ parseLine) =
      (splitOnChar '\n' cs).map id := by
    apply List.map_congr_left
    intro l _
    exact renderLine_parseLine l
  rw [hmap, List.map_id, joinLines_splitOnChar]

/-! ## Helper lemmas: locating and replacing the version item -/

theorem lineKV_eq_some {l : Line} {k : KeyVal} (h : lineKV l = some k) : l = Line.kv k := by
  cases l with
  | kv k0 => simp only [lineKV, Option.some.injEq] at h; rw [h]
  | blank raw => simp [lineKV] at h
  | header a n t => simp [lineKV] at h

theorem lineIsVersionKV_kv (k : KeyVal) :
    lineIsVersionKV (Line.kv k) = decide (k.key = "version".data) := rfl

/-- Full analysis of a successful `locateVersion`: the document decomposes
around the version key-value line, the prefix is nonempty (it contains at
least the `[package]` header), the key is `version`, and replacing the
key-value pieces by any pieces with the same key relocates to the same
position. -/
theorem locateVersion_spec {d a b : List Line} {k : KeyVal}
    (hloc : locateVersion d = some (a, k, b)) :
    d = a ++ Line.kv k :: b ∧ a ≠ [] ∧ k.key = "version".data ∧
    ∀ k' : KeyVal, k'.key = k.key →
      locateVersion (a ++ Line.kv k' :: b) = some (a, k', b) := by
  simp only [locateVersion] at hloc
  rcases hre : d.dropWhile (fun l => !(lineIsPackageHeader l)) with _ | ⟨h, body⟩
  · rw [hre] at hloc
    simp at hloc
  · rw [hre] at hloc
    rw [if_neg (by simp)] at hloc
    simp only [List.headD_cons, List.tail_cons] at hloc
    rcases hs2 : (body.takeWhile (fun l => !(lineIsAnyHeader l))).dropWhile
        (fun l => !(lineIsVersionKV l)) with _ | ⟨l0, s2t⟩
    · rw [hs2] at hloc
      simp [lineKV] at hloc
    · rw [hs2] at hloc
      simp only [List.headD_cons, List.tail_cons] at hloc
      have hv0 : lineIsVersionKV l0 = true := by
        have := head_dropWhile_false hs2
        simpa using this
      rcases l0 with raw | ⟨ld, nm, tr⟩ | k0
      · simp [lineIsVersionKV] at hv0
      · simp [lineIsVersionKV] at hv0
      · simp only [lineKV, Option.map_some'] at hloc
        rw [Option.some.injEq, Prod.mk.injEq, Prod.mk.injEq] at hloc
        obtain ⟨ha, hk, hb⟩ := hloc
        rw [hk] at hv0 hs2
        have hkey : k.key = "version".data := by
          rw [lineIsVersionKV_kv] at hv0
          simpa using hv0
        -- names for the pieces of the decomposition
        have hpre : ∀ l ∈ d.takeWhile (fun l => !(lineIsPackageHeader l)),
            (fun l => !(lineIsPackageHeader l)) l = true := by
          intro l hl
          have := List.mem_takeWhile_imp hl
          simpa using this
        have hh : lineIsPackageHeader h = true := by
          have := head_dropWhile_false hre
          simpa using this
        have hsec : body.takeWhile (fun l => !(lineIsAnyHeader l)) =
            (body.takeWhile (fun l => !(lineIsAnyHeader l))).takeWhile
              (fun l => !(lineIsVersionKV l)) ++ Line.kv k :: s2t := by
          conv_lhs => rw [← List.takeWhile_append_dropWhile
            (p := fun l => !(lineIsVersionKV l))
            (l := body.takeWhile (fun l => !(lineIsAnyHeader l))), hs2]
        have hbody : body = (body.takeWhile (fun l => !(lineIsAnyHeader l))) ++
            body.dropWhile (fun l => !(lineIsAnyHeader l)) :=
          (List.takeWhile_append_dropWhile _ _).symm
        have hd : d = d.takeWhile (fun l => !(lineIsPackageHeader l)) ++ h :: body := by
          conv_lhs => rw [← List.takeWhile_append_dropWhile
            (p := fun l => !(lineIsPackageHeader l)) (l := d), hre]
        -- membership facts
        have hs1mem : ∀ l ∈ (body.takeWhile (fun l => !(lineIsAnyHeader l))).takeWhile
            (fun l => !(lineIsVersionKV l)),
            lineIsVersionKV l = false ∧ lineIsAnyHeader l = false := by
          intro l hl
          constructor
          · have := List.mem_takeWhile_imp hl
            simpa using this
          · have := List.mem_takeWhile_imp (mem_of_mem_takeWhile hl)
            simpa using this
        have hs2tmem : ∀ l ∈ s2t, lineIsAnyHeader l = false := by
          intro l hl
          have hmem : l ∈ body.takeWhile (fun l => !(lineIsAnyHeader l)) := by
            apply mem_of_mem_dropWhile (p := fun l => !(lineIsVersionKV l))
            rw [hs2]
            exact List.mem_cons_of_mem _ hl
          have := List.mem_takeWhile_imp hmem
          simpa using this
        have hpost : body.dropWhile (fun l => !(lineIsAnyHeader l)) = [] ∨
            ∃ x t, body.dropWhile (fun l => !(lineIsAnyHeader l)) = x :: t ∧
              (fun l => !(lineIsAnyHeader l)) x = false := by
          rcases hp : body.dropWhile (fun l => !(lineIsAnyHeader l)) with _ | ⟨x, t⟩
          · exact Or.inl rfl
          · exact Or.inr ⟨x, t, rfl,
              head_dropWhile_false (p := fun l => !(lineIsAnyHeader l)) hp⟩
        -- the decomposition of d
        have hdecomp : d = a ++ Line.kv k :: b := by
          conv_rhs => rw [← ha, ← hb]
          conv_lhs => rw [hd]
          conv_lhs => rw [hbody]
          conv_lhs => rw [hsec]
          simp only [List.append_assoc, List.cons_append]
        refine ⟨hdecomp, ?_, hkey, ?_⟩
        · rw [← ha]
          simp
        · intro k' hk'
          have hverkv : (fun l => !(lineIsVersionKV l)) (Line.kv k') = false := by
            simp [lineIsVersionKV_kv, hk', hkey]
          have hnothdr : lineIsAnyHeader (Line.kv k') = false := rfl
          -- recompute locateVersion on the replaced document
          have hsplit1 := takeWhile_dropWhile_split
            (p := fun l => !(lineIsPackageHeader l))
            (a := d.takeWhile (fun l => !(lineIsPackageHeader l)))
            (b := h :: ((body.takeWhile (fun l => !(lineIsAnyHeader l))).takeWhile
                (fun l => !(lineIsVersionKV l)) ++ Line.kv k' ::
                (s2t ++ body.dropWhile (fun l => !(lineIsAnyHeader l)))))
            hpre (Or.inr ⟨h, _, rfl, by simp [hh]⟩)
          have hgrp : ∀ y ∈ (body.takeWhile (fun l => !(lineIsAnyHeader l))).takeWhile
              (fun l => !(lineIsVersionKV l)) ++ Line.kv k' :: s2t,
              (fun l => !(lineIsAnyHeader l)) y = true := by
            intro y hy
            rcases List.mem_append.1 hy with hy | hy
            · simp [(hs1mem y hy).2]
            · rcases List.mem_cons.1 hy with rfl | hy
              · simp [hnothdr]
              · simp [hs2tmem y hy]
          have hsplit2 := takeWhile_dropWhile_split
            (p := fun l => !(lineIsAnyHeader l))
            (a := (body.takeWhile (fun l => !(lineIsAnyHeader l))).takeWhile
                (fun l => !(lineIsVersionKV l)) ++ Line.kv k' :: s2t)
            (b := body.dropWhile (fun l => !(lineIsAnyHeader l)))
            hgrp hpost
          have hsplit3 := takeWhile_dropWhile_split
            (p := fun l => !(lineIsVersionKV l))
            (a := (body.takeWhile (fun l => !(lineIsAnyHeader l))).takeWhile
                (fun l => !(lineIsVersionKV l)))
            (b := Line.kv k' :: s2t)
            (fun y hy => by simp [(hs1mem y hy).1])
            (Or.inr ⟨Line.kv k', s2t, rfl, hverkv⟩)
          simp only [locateVersion]
          rw [← ha, ← hb]
          have harr : (d.takeWhile (fun l => !(lineIsPackageHeader l)) ++ h ::
              (body.takeWhile (fun l => !(lineIsAnyHeader l))).takeWhile
                (fun l => !(lineIsVersionKV l))) ++ Line.kv k' ::
              (s2t ++ body.dropWhile (fun l => !(lineIsAnyHeader l))) =
              d.takeWhile (fun l => !(lineIsPackageHeader l)) ++ h ::
              ((body.takeWhile (fun l => !(lineIsAnyHeader l))).takeWhile
                (fun l => !(lineIsVersionKV l)) ++ Line.kv k' ::
                (s2t ++ body.dropWhile (fun l => !(lineIsAnyHeader l)))) := by
            simp [List.append_assoc]
          rw [harr, hsplit1.1, hsplit1.2]
          rw [if_neg (by simp)]
          simp only [List.headD_cons, List.tail_cons]
          have harr2 : (body.takeWhile (fun l => !(lineIsAnyHeader l))).takeWhile
              (fun l => !(lineIsVersionKV l)) ++ Line.kv k' ::
              (s2t ++ body.dropWhile (fun l => !(lineIsAnyHeader l))) =
              ((body.takeWhile (fun l => !(lineIsAnyHeader l))).takeWhile
                (fun l => !(lineIsVersionKV l)) ++ Line.kv k' :: s2t) ++
              body.dropWhile (fun l => !(lineIsAnyHeader l)) := by
            simp [List.append_assoc]
          rw [harr2, hsplit2.1, hsplit2.2, hsplit3.1, hsplit3.2]
          simp [lineKV]

/-! ## Helper lemmas: the rewritten version line reparses to itself -/

theorem parseLine_kv_inv {cs : List Char} {k : KeyVal} (hp : parseLine cs = Line.kv k) :
    (∀ c ∈ k.lead, isWs c = true) ∧
    (∀ c ∈ k.lead ++ k.key ++ k.afterKey, c ∈ cs ∧ c ≠ '=') ∧
    (k.afterKey = [] ∨ ∃ c t, k.afterKey = c :: t ∧ keyChar c = false) := by
  simp only [parseLine] at hp
  by_cases h1 : cs.dropWhile isWs = []
  · rw [if_pos h1] at hp; exact absurd hp (by simp)
  · rw [if_neg h1] at hp
    by_cases h2 : (cs.dropWhile isWs).headD ' ' = '#'
    · rw [if_pos h2] at hp; exact absurd hp (by simp)
    · rw [if_neg h2] at hp
      by_cases h3 : (cs.dropWhile isWs).headD ' ' = '['
      · rw [if_pos h3] at hp
        by_cases h4 : ((cs.dropWhile isWs).tail.dropWhile (fun x => x != ']')) = []
        · rw [if_pos h4] at hp; exact absurd hp (by simp)
        · rw [if_neg h4] at hp; exact absurd hp (by simp)
      · rw [if_neg h3] at hp
        by_cases h5 : cs.dropWhile (fun x => x != '=') = []
        · rw [if_pos h5] at hp; exact absurd hp (by simp)
        · rw [if_neg h5] at hp
          rw [Line.kv.injEq] at hp
          subst hp
          refine ⟨?_, ?_, ?_⟩
          · intro c hc
            exact List.mem_takeWhile_imp hc
          · intro c hc
            have hcKeyPart : c ∈ cs.takeWhile (fun x => x != '=') := by
              rcases List.mem_append.1 hc with hc | hc
              · rcases List.mem_append.1 hc with hc | hc
                · exact mem_of_mem_takeWhile hc
                · exact mem_of_mem_dropWhile (mem_of_mem_takeWhile hc)
              · exact mem_of_mem_dropWhile (mem_of_mem_dropWhile hc)
            refine ⟨mem_of_mem_takeWhile hcKeyPart, ?_⟩
            have := List.mem_takeWhile_imp hcKeyPart
            simpa using this
          · rcases hak : ((cs.takeWhile (fun x => x != '=')).dropWhile isWs).dropWhile keyChar
                with _ | ⟨c, t⟩
            · exact Or.inl rfl
            · exact Or.inr ⟨c, t, rfl, head_dropWhile_false hak⟩

theorem quoteStr_eq (v : List Char) : quoteStr v = '"' :: (v ++ ['"']) := rfl

/-- Reparsing the rendered line of a version item freshly replaced by
`toml_edit::value v` gives the same pieces back, provided the version string
contains no quote (the model's basic strings are escape-free). -/
theorem parseLine_renderKV_setKV {cs : List Char} {k : KeyVal}
    (hp : parseLine cs = Line.kv k) (hkey : k.key = "version".data)
    {v : List Char} (hv : '"' ∉ v) :
    parseLine (renderKV (setKV v k)) = Line.kv (setKV v k) := by
  obtain ⟨hws, hkp, hak⟩ := parseLine_kv_inv hp
  have hkeyc : k.key = 'v' :: ['e', 'r', 's', 'i', 'o', 'n'] := by rw [hkey]
  have hL : renderKV (setKV v k) =
      k.lead ++ (k.key ++ (k.afterKey ++ '=' :: (' ' :: ('"' :: (v ++ ['"']))))) := by
    simp [renderKV, setKV, quoteStr_eq, List.append_assoc]
  -- facts about the pieces
  have hleadWs : ∀ c ∈ k.lead, isWs c = true := hws
  have hleadNe : ∀ c ∈ k.lead, (fun x => x != '=') c = true := by
    intro c hc
    have := (hkp c (by simp [hc])).2
    simpa using this
  have hkeyNe : ∀ c ∈ k.key, (fun x => x != '=') c = true := by
    intro c hc
    have := (hkp c (by simp [hc])).2
    simpa using this
  have hakNe : ∀ c ∈ k.afterKey, (fun x => x != '=') c = true := by
    intro c hc
    have := (hkp c (by simp [hc])).2
    simpa using this
  have hleadNw : ∀ c ∈ k.lead, (isWs c = true) := hws
  -- step 1: dropWhile isWs strips exactly the lead
  have hA : (renderKV (setKV v k)).dropWhile isWs =
      k.key ++ (k.afterKey ++ '=' :: (' ' :: ('"' :: (v ++ ['"'])))) := by
    rw [hL, List.dropWhile_append_of_pos hleadWs, hkeyc]
    rw [List.cons_append, List.dropWhile_cons, if_neg (by simp [isWs])]
  -- step 2: dropWhile (!= '=') strips lead, key and afterKey
  have hB : (renderKV (setKV v k)).dropWhile (fun x => x != '=') =
      '=' :: (' ' :: ('"' :: (v ++ ['"']))) := by
    rw [hL, List.dropWhile_append_of_pos hleadNe, List.dropWhile_append_of_pos hkeyNe,
      List.dropWhile_append_of_pos hakNe, List.dropWhile_cons, if_neg (by simp)]
  -- step 3: takeWhile (!= '=') keeps lead, key and afterKey
  have hC : (renderKV (setKV v k)).takeWhile (fun x => x != '=') =
      k.lead ++ (k.key ++ k.afterKey) := by
    rw [hL, List.takeWhile_append_of_pos hleadNe, List.takeWhile_append_of_pos hkeyNe,
      List.takeWhile_append_of_pos hakNe, List.takeWhile_cons, if_neg (by simp)]
    simp
  -- step 4: the key part splits back into lead, key, afterKey
  have hD : (k.lead ++ (k.key ++ k.afterKey)).dropWhile isWs = k.key ++ k.afterKey := by
    rw [List.dropWhile_append_of_pos hleadWs, hkeyc, List.cons_append,
      List.dropWhile_cons, if_neg (by simp [isWs])]
  have hE : (k.lead ++ (k.key ++ k.afterKey)).takeWhile isWs = k.lead := by
    rw [List.takeWhile_append_of_pos hleadWs, hkeyc, List.cons_append,
      List.takeWhile_cons, if_neg (by simp [isWs])]
    simp
  have hkeyChars : ∀ c ∈ k.key, keyChar c = true := by
    rw [hkeyc]
    decide
  have hF : (k.key ++ k.afterKey).takeWhile keyChar = k.key := by
    rw [List.takeWhile_append_of_pos hkeyChars]
    rcases hak with hak | ⟨c, t, hak, hc⟩
    · rw [hak]; simp
    · rw [hak, List.takeWhile_cons, if_neg (by simp [hc])]; simp
  have hG : (k.key ++ k.afterKey).dropWhile keyChar = k.afterKey := by
    rw [List.dropWhile_append_of_pos hkeyChars]
    rcases hak with hak | ⟨c, t, hak, hc⟩
    · rw [hak]; simp
    · rw [hak, List.dropWhile_cons, if_neg (by simp [hc])]
  -- step 5: the value side
  have hvne : ∀ c ∈ v, (fun x => x != '"') c = true := by
    intro c hc
    simp only [bne_iff_ne, ne_eq]
    rintro rfl
    exact hv hc
  have hH : (' ' :: ('"' :: (v ++ ['"']))).takeWhile isWs = [' '] := by
    rw [List.takeWhile_cons, if_pos (by rfl), List.takeWhile_cons, if_neg (by simp [isWs])]
  have hI : (' ' :: ('"' :: (v ++ ['"']))).dropWhile isWs = '"' :: (v ++ ['"']) := by
    rw [List.dropWhile_cons, if_pos (by rfl), List.dropWhile_cons, if_neg (by simp [isWs])]
  have hJ : splitVal ('"' :: (v ++ ['"'])) = (quoteStr v, []) := by
    have hdr : List.dropWhile (fun x => x != '"') (v ++ ['"']) = ['"'] := by
      rw [List.dropWhile_append_of_pos hvne]; rfl
    have htk : List.takeWhile (fun x => x != '"') (v ++ ['"']) = v := by
      rw [List.takeWhile_append_of_pos hvne]; simp
    simp [splitVal, hdr, htk, quoteStr_eq]
  -- assemble
  simp only [parseLine]
  rw [hA, hB, hC]
  rw [if_neg (by rw [hkeyc]; simp)]
  rw [if_neg (by rw [hkeyc]; simp), if_neg (by rw [hkeyc]; simp)]
  rw [if_neg (by simp), List.tail_cons, hD, hE, hF, hG, hH, hI, hJ]
  simp [setKV, hkey]

theorem setKV_key (v : List Char) (k : KeyVal) : (setKV v k).key = k.key := rfl

theorem setKV_setKV (v : List Char) (k : KeyVal) : setKV v (setKV v k) = setKV v k := rfl

theorem renderKV_setKV_eq (v : List Char) (k : KeyVal) :
    renderKV (setKV v k) =
      k.lead ++ (k.key ++ (k.afterKey ++ '=' :: (' ' :: ('"' :: (v ++ ['"']))))) := by
  simp [renderKV, setKV, quoteStr_eq, List.append_assoc]

theorem noNl_renderKV_setKV {cs : List Char} {k : KeyVal}
    (hp : parseLine cs = Line.kv k) (hcs : '\n' ∉ cs) {v : List Char} (hv : '\n' ∉ v) :
    '\n' ∉ renderKV (setKV v k) := by
  obtain ⟨hws, hkp, hak⟩ := parseLine_kv_inv hp
  rw [renderKV_setKV_eq]
  intro hmem
  rcases List.mem_append.1 hmem with h | h
  · exact hcs (hkp '\n' (by simp [h])).1
  · rcases List.mem_append.1 h with h | h
    · exact hcs (hkp '\n' (by simp [h])).1
    · rcases List.mem_append.1 h with h | h
      · exact hcs (hkp '\n' (by simp [h])).1
      · rcases List.mem_cons.1 h with h | h
        · exact absurd h (by decide)
        · rcases List.mem_cons.1 h with h | h
          · exact absurd h (by decide)
          · rcases List.mem_cons.1 h with h | h
            · exact absurd h (by decide)
            · rcases List.mem_append.1 h with h | h
              · exact hv h
              · exact absurd h (by decide)

/-! ## Helper lemmas: document round-trips -/

theorem parseDoc_mem_stable {s : List Char} :
    ∀ l ∈ parseDoc s, parseLine (renderLine l) = l ∧ '\n' ∉ renderLine l := by
  intro l hl
  obtain ⟨cs, hcs, rfl⟩ := List.mem_map.1 hl
  rw [renderLine_parseLine]
  exact ⟨rfl, not_mem_of_mem_splitOnChar '\n' s cs hcs⟩

theorem parseDoc_renderDoc_of_stable {d : List Line} (hne : d ≠ [])
    (h : ∀ l ∈ d, parseLine (renderLine l) = l ∧ '\n' ∉ renderLine l) :
    parseDoc (renderDoc d) = d := by
  unfold parseDoc renderDoc
  rw [splitOnChar_joinLines (d.map renderLine) (by simpa using hne)
    (by intro l hl; obtain ⟨l0, hl0, rfl⟩ := List.mem_map.1 hl; exact (h l0 hl0).2)]
  rw [List.map_map]
  have : d.map (parseLine ∘ renderLine) = d.map id := by
    apply List.map_congr_left
    intro l hl
    exact (h l hl).1
  rw [this, List.map_id]

theorem renderDoc_decomp (a : List Line) (k : KeyVal) (b : List Line) (x : Line)
    (a' : List Line) (hax : a = x :: a') :
    renderDoc (a ++ Line.kv k :: b) =
      (renderDoc a ++ '\n' :: (k.lead ++ (k.key ++ (k.afterKey ++ ['='])))) ++
      (k.beforeVal ++ (k.valRepr ++ k.trailing)) ++ joinAux (b.map renderLine) := by
  subst hax
  simp only [renderDoc, List.cons_append, List.map_cons, List.map_append, joinLines_cons,
    joinAux_append, joinAux_cons, renderLine, renderKV]
  simp [List.append_assoc]

/-! ## The manifest rewrite: frame and idempotence -/

theorem applyWrite_eq_of_locate {v s : List Char} {a b : List Line} {k : KeyVal}
    (hloc : locateVersion (parseDoc s) = some (a, k, b)) :
    applyWrite v s = some (renderDoc (a ++ Line.kv (setKV v k) :: b)) := by
  unfold applyWrite setVer
  rw [hloc]
  rfl

theorem applyWrite_none_of_locate {v s : List Char}
    (hloc : locateVersion (parseDoc s) = none) : applyWrite v s = none := by
  unfold applyWrite setVer
  rw [hloc]
  rfl

/-- Core idempotence: a successful rewrite, rewritten again with the same
version string, reproduces the same bytes. -/
theorem applyWrite_applyWrite {v s b1 : List Char} (h : applyWrite v s = some b1)
    (hq : '"' ∉ v) (hn : '\n' ∉ v) : applyWrite v b1 = some b1 := by
  rcases hloc : locateVersion (parseDoc s) with _ | ⟨⟨a, k, b⟩⟩
  · rw [applyWrite_none_of_locate hloc] at h
    exact absurd h (by simp)
  · rw [applyWrite_eq_of_locate hloc] at h
    rw [Option.some.injEq] at h
    obtain ⟨hdec, hane, hkey, hrepl⟩ := locateVersion_spec hloc
    have hkv_mem : Line.kv k ∈ parseDoc s := by
      rw [hdec]; exact List.mem_append.2 (Or.inr (List.mem_cons_self _ _))
    obtain ⟨cs0, hcs0, hpk⟩ := List.mem_map.1 hkv_mem
    have hcs0nl : '\n' ∉ cs0 := not_mem_of_mem_splitOnChar '\n' s cs0 hcs0
    have hstab : ∀ l ∈ a ++ Line.kv (setKV v k) :: b,
        parseLine (renderLine l) = l ∧ '\n' ∉ renderLine l := by
      intro l hl
      rcases List.mem_append.1 hl with hl | hl
      · exact parseDoc_mem_stable l (by rw [hdec]; exact List.mem_append.2 (Or.inl hl))
      · rcases List.mem_cons.1 hl with rfl | hl
        · constructor
          · exact parseLine_renderKV_setKV hpk hkey hq
          · exact noNl_renderKV_setKV hpk hcs0nl hn
        · exact parseDoc_mem_stable l
            (by rw [hdec]; exact List.mem_append.2 (Or.inr (List.mem_cons_of_mem _ hl)))
    have hround : parseDoc (renderDoc (a ++ Line.kv (setKV v k) :: b)) =
        a ++ Line.kv (setKV v k) :: b :=
      parseDoc_renderDoc_of_stable (by simp) hstab
    rw [h] at hround
    have hloc2 : locateVersion (parseDoc b1) = some (a, setKV v k, b) := by
      rw [hround]
      exact hrepl (setKV v k) (setKV_key v k)
    rw [applyWrite_eq_of_locate hloc2, setKV_setKV, h]

/-! ## Helper lemmas: the per-package loop -/

theorem process_nil (v : List Char) (dr : Bool) (fs : FS) :
    processPackages v dr [] fs = ([], .ok (fs, false)) := rfl

theorem process_cons_none {v : List Char} {p : Package} {fs : FS} (dr : Bool)
    (rest : List Package) (h : setVer v (parseDoc (fs p.manifestPath)) = none) :
    processPackages v dr (p :: rest) fs =
      ([.readManifest p.manifestPath], .error (.malformedManifest p.name)) := by
  simp only [processPackages]
  rw [h]

theorem process_cons_some_dry {v : List Char} {p : Package} {fs : FS} {d : List Line}
    (rest : List Package) (h : setVer v (parseDoc (fs p.manifestPath)) = some d) :
    processPackages v true (p :: rest) fs =
      (Ev.readManifest p.manifestPath :: (processPackages v true rest fs).1,
       (processPackages v true rest fs).2) := by
  simp only [processPackages]
  rw [h]
  rfl

theorem process_cons_some_wet {v : List Char} {p : Package} {fs : FS} {d : List Line}
    (rest : List Package) (h : setVer v (parseDoc (fs p.manifestPath)) = some d) :
    processPackages v false (p :: rest) fs =
      (Ev.readManifest p.manifestPath ::
        Ev.writeManifest p.manifestPath (renderDoc d) ::
        (processPackages v false rest (fsWrite fs p.manifestPath (renderDoc d))).1,
       match (processPackages v false rest (fsWrite fs p.manifestPath (renderDoc d))).2 with
       | .error e => .error e
       | .ok (fs', _) => .ok (fs', true)) := by
  simp only [processPackages]
  rw [h]
  rfl

theorem process_no_refresh (v : List Char) (dr : Bool) :
    ∀ (l : List Package) (fs : FS), Ev.refreshLock ∉ (processPackages v dr l fs).1 := by
  intro l
  induction l with
  | nil => intro fs; simp [process_nil]
  | cons p rest ih =>
    intro fs
    rcases hsv : setVer v (parseDoc (fs p.manifestPath)) with _ | d
    · rw [process_cons_none dr rest hsv]
      simp
    · cases dr
      · rw [process_cons_some_wet rest hsv]
        simp only [List.mem_cons]
        rintro (h | h | h)
        · exact absurd h (by simp)
        · exact absurd h (by simp)
        · exact ih _ h
      · rw [process_cons_some_dry rest hsv]
        simp only [List.mem_cons]
        rintro (h | h)
        · exact absurd h (by simp)
        · exact ih _ h

theorem process_dry_no_write (v : List Char) :
    ∀ (l : List Package) (fs : FS) (p : FsPath) (c : List Char),
      Ev.writeManifest p c ∉ (processPackages v true l fs).1 := by
  intro l
  induction l with
  | nil => intro fs p c; simp [process_nil]
  | cons q rest ih =>
    intro fs p c
    rcases hsv : setVer v (parseDoc (fs q.manifestPath)) with _ | d
    · rw [process_cons_none true rest hsv]
      simp
    · rw [process_cons_some_dry rest hsv]
      simp only [List.mem_cons]
      rintro (h | h)
      · exact absurd h (by simp)
      · exact ih _ p c h

theorem process_dry_result (v : List Char) :
    ∀ (l : List Package) (fs fs₁ : FS) (hc : Bool),
      (processPackages v true l fs).2 = .ok (fs₁, hc) → fs₁ = fs ∧ hc = false := by
  intro l
  induction l with
  | nil =>
    intro fs fs₁ hc h
    rw [process_nil] at h
    rw [Except.ok.injEq, Prod.mk.injEq] at h
    exact ⟨h.1.symm, h.2.symm⟩
  | cons q rest ih =>
    intro fs fs₁ hc h
    rcases hsv : setVer v (parseDoc (fs q.manifestPath)) with _ | d
    · rw [process_cons_none true rest hsv] at h
      exact absurd h (by simp)
    · rw [process_cons_some_dry rest hsv] at h
      exact ih fs fs₁ hc h

theorem process_dry_ok (v : List Char) :
    ∀ (l : List Package) (fs : FS),
      (∀ q ∈ l, (setVer v (parseDoc (fs q.manifestPath))).isSome = true) →
      processPackages v true l fs =
        (l.map (fun q => Ev.readManifest q.manifestPath), .ok (fs, false)) := by
  intro l
  induction l with
  | nil => intro fs _; rfl
  | cons q rest ih =>
    intro fs h
    rcases hsv : setVer v (parseDoc (fs q.manifestPath)) with _ | d
    · exact absurd (hsv ▸ h q (List.mem_cons_self q rest)) (by simp)
    · rw [process_cons_some_dry rest hsv,
        ih fs (fun x hx => h x (List.mem_cons_of_mem q hx))]
      rfl

theorem process_hc_iff_write (v : List Char) (dr : Bool) :
    ∀ (l : List Package) (fs fs₁ : FS) (hc : Bool),
      (processPackages v dr l fs).2 = .ok (fs₁, hc) →
      (hc = true ↔ ∃ p c, Ev.writeManifest p c ∈ (processPackages v dr l fs).1) := by
  intro l
  induction l with
  | nil =>
    intro fs fs₁ hc h
    rw [process_nil] at h ⊢
    rw [Except.ok.injEq, Prod.mk.injEq] at h
    rw [← h.2]
    simp
  | cons q rest ih =>
    intro fs fs₁ hc h
    rcases hsv : setVer v (parseDoc (fs q.manifestPath)) with _ | d
    · rw [process_cons_none dr rest hsv] at h
      exact absurd h (by simp)
    · cases dr
      · rw [process_cons_some_wet rest hsv] at h ⊢
        rcases hr : (processPackages v false rest
            (fsWrite fs q.manifestPath (renderDoc d))).2 with e | ⟨fs', hc'⟩
        · rw [hr] at h
          exact absurd h (by simp)
        · rw [hr] at h
          rw [Except.ok.injEq, Prod.mk.injEq] at h
          rw [← h.2]
          simp only [true_iff]
          exact ⟨q.manifestPath, renderDoc d, by simp⟩
      · rw [process_cons_some_dry rest hsv] at h ⊢
        have := ih fs fs₁ hc h
        rw [this]
        constructor
        · rintro ⟨p, c, hm⟩
          exact ⟨p, c, List.mem_cons_of_mem _ hm⟩
        · rintro ⟨p, c, hm⟩
          rcases List.mem_cons.1 hm with hm | hm
          · exact absurd hm (by simp)
          · exact ⟨p, c, hm⟩

theorem process_wet_head_hc {v : List Char} {p : Package} {rest : List Package}
    {fs fs₁ : FS} {hc : Bool}
    (h : (processPackages v false (p :: rest) fs).2 = .ok (fs₁, hc)) : hc = true := by
  rcases hsv : setVer v (parseDoc (fs p.manifestPath)) with _ | d
  · rw [process_cons_none false rest hsv] at h
    exact absurd h (by simp)
  · rw [process_cons_some_wet rest hsv] at h
    rcases hr : (processPackages v false rest
        (fsWrite fs p.manifestPath (renderDoc d))).2 with e | ⟨fs', hc'⟩
    · rw [hr] at h
      exact absurd h (by simp)
    · rw [hr] at h
      rw [Except.ok.injEq, Prod.mk.injEq] at h
      exact h.2.symm

theorem process_wet_writes (v : List Char) :
    ∀ (l : List Package) (fs fs₁ : FS) (hc : Bool),
      (processPackages v false l fs).2 = .ok (fs₁, hc) →
      ∀ p ∈ l, ∃ c, Ev.writeManifest p.manifestPath c ∈ (processPackages v false l fs).1 := by
  intro l
  induction l with
  | nil => intro fs fs₁ hc _ p hp; exact absurd hp (by simp)
  | cons q rest ih =>
    intro fs fs₁ hc h p hp
    rcases hsv : setVer v (parseDoc (fs q.manifestPath)) with _ | d
    · rw [process_cons_none false rest hsv] at h
      exact absurd h (by simp)
    · rw [process_cons_some_wet rest hsv] at h ⊢
      rcases hr : (processPackages v false rest
          (fsWrite fs q.manifestPath (renderDoc d))).2 with e | ⟨fs', hc'⟩
      · rw [hr] at h
        exact absurd h (by simp)
      · rcases List.mem_cons.1 hp with rfl | hp
        · exact ⟨renderDoc d, by simp⟩
        · obtain ⟨c, hcm⟩ := ih _ fs' hc' hr p hp
          exact ⟨c, by simp [hcm]⟩

theorem process_append_fail (v : List Char) (dr : Bool) (p : Package) (post : List Package) :
    ∀ (pre : List Package) (fs fs₁ : FS) (hc : Bool),
      (processPackages v dr pre fs).2 = .ok (fs₁, hc) →
      setVer v (parseDoc (fs₁ p.manifestPath)) = none →
      processPackages v dr (pre ++ p :: post) fs =
        ((processPackages v dr pre fs).1 ++ [.readManifest p.manifestPath],
         .error (.malformedManifest p.name)) := by
  intro pre
  induction pre with
  | nil =>
    intro fs fs₁ hc h hfail
    rw [process_nil] at h
    rw [Except.ok.injEq, Prod.mk.injEq] at h
    rw [List.nil_append, process_cons_none dr post (h.1 ▸ hfail), process_nil]
    rfl
  | cons q pre' ih =>
    intro fs fs₁ hc h hfail
    rcases hsv : setVer v (parseDoc (fs q.manifestPath)) with _ | d
    · rw [process_cons_none dr pre' hsv] at h
      exact absurd h (by simp)
    · cases dr
      · rw [process_cons_some_wet pre' hsv] at h
        rcases hr : (processPackages v false pre'
            (fsWrite fs q.manifestPath (renderDoc d))).2 with e | ⟨fs', hc'⟩
        · rw [hr] at h
          exact absurd h (by simp)
        · rw [hr] at h
          rw [Except.ok.injEq, Prod.mk.injEq] at h
          have hIH := ih _ fs' hc' hr (h.1 ▸ hfail)
          rw [List.cons_append, process_cons_some_wet (pre' ++ p :: post) hsv,
            process_cons_some_wet pre' hsv, hIH, hr]
          simp
      · rw [process_cons_some_dry pre' hsv] at h
        have hIH := ih fs fs₁ hc h hfail
        rw [List.cons_append, process_cons_some_dry (pre' ++ p :: post) hsv,
          process_cons_some_dry pre' hsv, hIH]
        simp

theorem process_error_malformed (v : List Char) (dr : Bool) :
    ∀ (l : List Package) (fs : FS) (e : RunError),
      (processPackages v dr l fs).2 = .error e → ∃ n, e = RunError.malformedManifest n := by
  intro l
  induction l with
  | nil =>
    intro fs e h
    rw [process_nil] at h
    exact absurd h (by simp)
  | cons q rest ih =>
    intro fs e h
    rcases hsv : setVer v (parseDoc (fs q.manifestPath)) with _ | d
    · rw [process_cons_none dr rest hsv] at h
      rw [Except.error.injEq] at h
      exact ⟨q.name, h.symm⟩
    · cases dr
      · rw [process_cons_some_wet rest hsv] at h
        rcases hr : (processPackages v false rest
            (fsWrite fs q.manifestPath (renderDoc d))).2 with e' | ⟨fs', hc'⟩
        · rw [hr] at h
          rw [Except.error.injEq] at h
          exact h ▸ ih _ e' hr
        · rw [hr] at h
          exact absurd h (by simp)
      · rw [process_cons_some_dry rest hsv] at h
        exact ih fs e h

/-! ## The claims -/

/-- C1: the affected-set resolver marks a package as affected exactly when
some changed file's path components start with the package directory's path
components (component-wise prefix, equal or nested); in particular
`/ws/foo-bar/x.txt` is a raw-string extension of `/ws/foo` but does not
affect a package with directory `/ws/foo`. -/
theorem resolver_component_prefix_correct :
    (∀ (changed : List FsPath) (pkgs : List Package) (p : Package),
        p ∈ resolveAffected changed pkgs ↔
          p ∈ pkgs ∧ ∃ f ∈ changed, ∃ rest, manifestDir p ++ rest = f) ∧
    fileWithinDir (pathComponents "/ws/foo-bar/x.txt") (pathComponents "/ws/foo") = false ∧
    ("/ws/foo").data.isPrefixOf ("/ws/foo-bar/x.txt").data = true ∧
    fileWithinDir (pathComponents "/ws/foo/src/lib.txt") (pathComponents "/ws/foo") = true ∧
    fileWithinDir (pathComponents "/ws/foo") (pathComponents "/ws/foo") = true := by
  refine ⟨?_, by decide, by decide, by decide, by decide⟩
  intro changed pkgs p
  have hiff : ∀ f d : FsPath, fileWithinDir f d = true ↔ ∃ rest, d ++ rest = f := by
    intro f d
    unfold fileWithinDir
    rw [List.isPrefixOf_iff_prefix]
    exact Iff.rfl
  unfold resolveAffected
  rw [List.mem_filter]
  simp only [List.any_eq_true]
  constructor
  · rintro ⟨hp, f, hf, hw⟩
    exact ⟨hp, f, hf, (hiff f (manifestDir p)).1 hw⟩
  · rintro ⟨hp, f, hf, hw⟩
    exact ⟨hp, f, hf, (hiff f (manifestDir p)).2 hw⟩

/-- C7: the resolver is a pure function of the membership of the changed
set (duplicate changed paths are harmless), returns a sublist of the input
package list (stable order, not re-sorted), and never lists a package twice
when the input does not. -/
theorem resolver_stable_nodup_pure (changed changed' : List FsPath) (pkgs : List Package)
    (hnd : pkgs.Nodup) (hmem : ∀ f, f ∈ changed ↔ f ∈ changed') :
    (resolveAffected changed pkgs).Sublist pkgs ∧
    (resolveAffected changed pkgs).Nodup ∧
    resolveAffected changed pkgs = resolveAffected changed' pkgs := by
  refine ⟨List.filter_sublist pkgs, hnd.filter _, ?_⟩
  unfold resolveAffected
  apply List.filter_congr
  intro p _
  apply Bool.coe_iff_coe.mp
  simp only [List.any_eq_true]
  constructor
  · rintro ⟨f, hf, hw⟩
    exact ⟨f, (hmem f).1 hf, hw⟩
  · rintro ⟨f, hf, hw⟩
    exact ⟨f, (hmem f).2 hf, hw⟩

/-- C7 witness: a concrete package list and a changed set with a duplicated
path give the same stable, duplicate-free result. -/
theorem resolver_stable_nodup_pure_witness :
    ([pkgA].Nodup ∧ (∀ f, f ∈ changedA ↔ f ∈ changedA ++ changedA)) ∧
    (resolveAffected changedA [pkgA]).Sublist [pkgA] ∧
    (resolveAffected changedA [pkgA]).Nodup ∧
    resolveAffected changedA [pkgA] = resolveAffected (changedA ++ changedA) [pkgA] := by
  have hm : ∀ f, f ∈ changedA ↔ f ∈ changedA ++ changedA := by
    intro f
    simp [changedA]
  exact ⟨⟨by decide, hm⟩, resolver_stable_nodup_pure changedA (changedA ++ changedA) [pkgA]
    (by decide) hm⟩

/-- C8: an empty changed-file set resolves to an empty affected set and the
run is a complete no-op: empty event trace (no manifest read, no write, no
lock refresh) and an unchanged filesystem with a success outcome. -/
theorem empty_changed_noop (v : List Char) (dr : Bool) (pkgs : List Package)
    (fs : FS) (rOk : Bool) :
    resolveAffected [] pkgs = [] ∧ runJump v dr [] pkgs fs rOk = ([], .ok fs) := by
  have hres : resolveAffected [] pkgs = [] := by
    unfold resolveAffected
    simp
  refine ⟨hres, ?_⟩
  unfold runJump
  rw [hres]
  rfl

/-- Unfolding `runJump` when the affected set is empty. -/
theorem runJump_empty {changed : List FsPath} {pkgs : List Package}
    (h : resolveAffected changed pkgs = []) (v : List Char) (dr : Bool) (fs : FS)
    (rOk : Bool) : runJump v dr changed pkgs fs rOk = ([], .ok fs) := by
  simp only [runJump]
  rw [h]
  rfl

/-- Unfolding `runJump` when the per-package phase aborts. -/
theorem runJump_eq_error {v : List Char} {dr : Bool} {changed : List FsPath}
    {pkgs : List Package} {fs : FS} {e : RunError}
    (hne : (resolveAffected changed pkgs).isEmpty = false)
    (hr : (processPackages v dr (resolveAffected changed pkgs) fs).2 = .error e)
    (rOk : Bool) :
    runJump v dr changed pkgs fs rOk =
      ((processPackages v dr (resolveAffected changed pkgs) fs).1, .error e) := by
  simp only [runJump]
  rw [if_neg (by rw [hne]; simp), hr]

/-- Unfolding `runJump` when the per-package phase succeeds without any
write: the lock refresh is skipped. -/
theorem runJump_eq_ok_nochange {v : List Char} {dr : Bool} {changed : List FsPath}
    {pkgs : List Package} {fs fs' : FS}
    (hne : (resolveAffected changed pkgs).isEmpty = false)
    (hr : (processPackages v dr (resolveAffected changed pkgs) fs).2 = .ok (fs', false))
    (rOk : Bool) :
    runJump v dr changed pkgs fs rOk =
      ((processPackages v dr (resolveAffected changed pkgs) fs).1, .ok fs') := by
  simp only [runJump]
  rw [if_neg (by rw [hne]; simp), hr]
  rfl

/-- Unfolding `runJump` when a write happened and `cargo fetch` succeeds. -/
theorem runJump_eq_ok_refresh {v : List Char} {dr : Bool} {changed : List FsPath}
    {pkgs : List Package} {fs fs' : FS}
    (hne : (resolveAffected changed pkgs).isEmpty = false)
    (hr : (processPackages v dr (resolveAffected changed pkgs) fs).2 = .ok (fs', true)) :
    runJump v dr changed pkgs fs true =
      ((processPackages v dr (resolveAffected changed pkgs) fs).1 ++ [.refreshLock],
       .ok fs') := by
  simp only [runJump]
  rw [if_neg (by rw [hne]; simp), hr]
  rfl

/-- Unfolding `runJump` when a write happened and `cargo fetch` fails. -/
theorem runJump_eq_ok_refresh_fail {v : List Char} {dr : Bool} {changed : List FsPath}
    {pkgs : List Package} {fs fs' : FS}
    (hne : (resolveAffected changed pkgs).isEmpty = false)
    (hr : (processPackages v dr (resolveAffected changed pkgs) fs).2 = .ok (fs', true)) :
    runJump v dr changed pkgs fs false =
      ((processPackages v dr (resolveAffected changed pkgs) fs).1 ++ [.refreshLock],
       .error RunError.refreshFailed) := by
  simp only [runJump]
  rw [if_neg (by rw [hne]; simp), hr]
  rfl

/-- C4: the lock refresh appears at most once in the trace and only as the
last event, strictly after every manifest write; when the per-package phase
did not abort on a malformed manifest, it fires exactly when some manifest
write happened; and if `cargo fetch` fails while invoked, the run ends in
the fatal `refreshFailed` outcome rather than success. -/
theorem refresh_trigger_spec (v : List Char) (dr : Bool) (changed : List FsPath)
    (pkgs : List Package) (fs : FS) (rOk : Bool) :
    List.count Ev.refreshLock (runJump v dr changed pkgs fs rOk).1 ≤ 1 ∧
    (Ev.refreshLock ∈ (runJump v dr changed pkgs fs rOk).1 →
      ∃ t, (runJump v dr changed pkgs fs rOk).1 = t ++ [Ev.refreshLock] ∧
        Ev.refreshLock ∉ t) ∧
    ((∀ n, (runJump v dr changed pkgs fs rOk).2 ≠ .error (.malformedManifest n)) →
      (Ev.refreshLock ∈ (runJump v dr changed pkgs fs rOk).1 ↔
        ∃ p c, Ev.writeManifest p c ∈ (runJump v dr changed pkgs fs rOk).1)) ∧
    (rOk = false → Ev.refreshLock ∈ (runJump v dr changed pkgs fs rOk).1 →
      (runJump v dr changed pkgs fs rOk).2 = .error RunError.refreshFailed) := by
  by_cases hemp : resolveAffected changed pkgs = []
  · rw [runJump_empty hemp]
    simp
  · have hne : (resolveAffected changed pkgs).isEmpty = false :=
      List.isEmpty_eq_false.mpr hemp
    have hnr := process_no_refresh v dr (resolveAffected changed pkgs) fs
    rcases hr : (processPackages v dr (resolveAffected changed pkgs) fs).2
        with e | ⟨fs', hc⟩
    · rw [runJump_eq_error hne hr rOk]
      refine ⟨?_, ?_, ?_, ?_⟩
      · simp [List.count_eq_zero.mpr hnr]
      · intro hmem
        exact absurd hmem hnr
      · intro hno
        obtain ⟨n, rfl⟩ := process_error_malformed v dr _ fs e hr
        exact (hno n rfl).elim
      · intro _ hmem
        exact absurd hmem hnr
    · have hiff := process_hc_iff_write v dr (resolveAffected changed pkgs) fs fs' hc hr
      cases hc
      · rw [runJump_eq_ok_nochange hne hr rOk]
        refine ⟨?_, ?_, ?_, ?_⟩
        · simp [List.count_eq_zero.mpr hnr]
        · intro hmem
          exact absurd hmem hnr
        · intro _
          constructor
          · intro hmem
            exact absurd hmem hnr
          · intro h
            exact absurd (hiff.2 h) (by simp)
        · intro _ hmem
          exact absurd hmem hnr
      · have hwr := hiff.1 rfl
        have hcount : List.count Ev.refreshLock
            ((processPackages v dr (resolveAffected changed pkgs) fs).1 ++
              [Ev.refreshLock]) ≤ 1 := by
          rw [List.count_append, List.count_eq_zero.mpr hnr]
          simp
        have hlast : ∃ t, (processPackages v dr (resolveAffected changed pkgs) fs).1 ++
            [Ev.refreshLock] = t ++ [Ev.refreshLock] ∧ Ev.refreshLock ∉ t :=
          ⟨_, rfl, hnr⟩
        have hiff2 : Ev.refreshLock ∈ (processPackages v dr
              (resolveAffected changed pkgs) fs).1 ++ [Ev.refreshLock] ↔
            ∃ p c, Ev.writeManifest p c ∈ (processPackages v dr
              (resolveAffected changed pkgs) fs).1 ++ [Ev.refreshLock] := by
          constructor
          · intro _
            obtain ⟨p, c, hm⟩ := hwr
            exact ⟨p, c, List.mem_append.2 (Or.inl hm)⟩
          · intro _
            exact List.mem_append.2 (Or.inr (by simp))
        cases rOk
        · rw [runJump_eq_ok_refresh_fail hne hr]
          exact ⟨hcount, fun _ => hlast, fun _ => hiff2, fun _ _ => rfl⟩
        · rw [runJump_eq_ok_refresh hne hr]
          exact ⟨hcount, fun _ => hlast, fun _ => hiff2, fun h => absurd h (by simp)⟩

/-- C4 witness: a concrete write-bearing run invokes the refresh exactly
once, after the write. -/
theorem refresh_trigger_spec_witness :
    (runJump verTwo false changedA [pkgA] sampleFS true).1 =
      [Ev.readManifest pkgA.manifestPath,
       Ev.writeManifest pkgA.manifestPath sampleManifestWritten,
       Ev.refreshLock] ∧
    (∀ n, (runJump verTwo false changedA [pkgA] sampleFS true).2 ≠
      .error (.malformedManifest n)) ∧
    (Ev.refreshLock ∈ (runJump verTwo false changedA [pkgA] sampleFS true).1 ↔
      ∃ p c, Ev.writeManifest p c ∈ (runJump verTwo false changedA [pkgA] sampleFS true).1) := by
  have hval : (runJump verTwo false changedA [pkgA] sampleFS true).2 =
      Except.ok (fsWrite sampleFS pkgA.manifestPath sampleManifestWritten) := rfl
  have hno : ∀ n, (runJump verTwo false changedA [pkgA] sampleFS true).2 ≠
      .error (.malformedManifest n) := by
    intro n h
    rw [hval] at h
    exact Except.noConfusion h
  exact ⟨by decide, hno,
    (refresh_trigger_spec verTwo false changedA [pkgA] sampleFS true).2.2.1 hno⟩

/-- C5: with `dry_run` set, the run writes no manifest, never invokes the
lock refresh, leaves the filesystem untouched on success, and the
per-package loop reports `has_change = false` whatever the packages. -/
theorem dry_run_purity (v : List Char) (changed : List FsPath) (pkgs : List Package)
    (fs : FS) (rOk : Bool) :
    (∀ p c, Ev.writeManifest p c ∉ (runJump v true changed pkgs fs rOk).1) ∧
    Ev.refreshLock ∉ (runJump v true changed pkgs fs rOk).1 ∧
    (∀ fs', (runJump v true changed pkgs fs rOk).2 = .ok fs' → fs' = fs) ∧
    (∀ (l : List Package) (fs₀ fs₁ : FS) (hc : Bool),
      (processPackages v true l fs₀).2 = .ok (fs₁, hc) → hc = false) := by
  refine ?_
  by_cases hemp : resolveAffected changed pkgs = []
  · rw [runJump_empty hemp]
    refine ⟨by simp, by simp, ?_,
      fun l fs₀ fs₁ hc h => (process_dry_result v l fs₀ fs₁ hc h).2⟩
    intro fs' h
    exact (Except.ok.inj h).symm
  · have hne : (resolveAffected changed pkgs).isEmpty = false :=
      List.isEmpty_eq_false.mpr hemp
    rcases hr : (processPackages v true (resolveAffected changed pkgs) fs).2
        with e | ⟨fs', hc⟩
    · rw [runJump_eq_error hne hr rOk]
      refine ⟨?_, ?_, ?_,
        fun l fs₀ fs₁ hc h => (process_dry_result v l fs₀ fs₁ hc h).2⟩
      · intro p c
        exact process_dry_no_write v (resolveAffected changed pkgs) fs p c
      · exact process_no_refresh v true (resolveAffected changed pkgs) fs
      · intro fs' h
        exact absurd h (by simp)
    · obtain ⟨hfs, hhc⟩ := process_dry_result v (resolveAffected changed pkgs) fs fs' hc hr
      subst hhc
      rw [hfs] at hr
      rw [runJump_eq_ok_nochange hne hr rOk]
      refine ⟨?_, ?_, ?_,
        fun l fs₀ fs₁ hc h => (process_dry_result v l fs₀ fs₁ hc h).2⟩
      · intro p c
        exact process_dry_no_write v (resolveAffected changed pkgs) fs p c
      · exact process_no_refresh v true (resolveAffected changed pkgs) fs
      · intro fs'' h
        exact (Except.ok.inj h).symm

/-- C5 witness: a concrete dry run: one affected package, only a read event,
the unchanged filesystem as outcome. -/
theorem dry_run_purity_witness :
    runJump verTwo true changedA [pkgA] sampleFS true =
      ([Ev.readManifest pkgA.manifestPath], Except.ok sampleFS) ∧
    (∀ p c, Ev.writeManifest p c ∉ (runJump verTwo true changedA [pkgA] sampleFS true).1) ∧
    Ev.refreshLock ∉ (runJump verTwo true changedA [pkgA] sampleFS true).1 ∧
    ((runJump verTwo true changedA [pkgA] sampleFS true).2 = .ok sampleFS →
      sampleFS = sampleFS) := by
  obtain ⟨h1, h2, h3, _⟩ := dry_run_purity verTwo changedA [pkgA] sampleFS true
  exact ⟨rfl, h1, h2, fun h => h3 sampleFS h⟩

/-- C9: a dry run still reads and parses every affected manifest in order,
so the first malformed manifest aborts the dry run with the same
`MalformedManifest` outcome as a real run would, after reading it. -/
theorem dry_run_validates_manifests (v : List Char) (changed : List FsPath)
    (pkgs : List Package) (fs : FS) (rOk : Bool) (pre : List Package) (p : Package)
    (post : List Package)
    (haff : resolveAffected changed pkgs = pre ++ p :: post)
    (hpre : ∀ q ∈ pre, (setVer v (parseDoc (fs q.manifestPath))).isSome = true)
    (hp : setVer v (parseDoc (fs p.manifestPath)) = none) :
    (runJump v true changed pkgs fs rOk).2 = .error (.malformedManifest p.name) ∧
    Ev.readManifest p.manifestPath ∈ (runJump v true changed pkgs fs rOk).1 := by
  have hok : (processPackages v true pre fs).2 = .ok (fs, false) := by
    rw [process_dry_ok v pre fs hpre]
  have hfail := process_append_fail v true p post pre fs fs false hok hp
  have hne : (resolveAffected changed pkgs).isEmpty = false :=
    List.isEmpty_eq_false.mpr (by rw [haff]; simp)
  have herr : (processPackages v true (resolveAffected changed pkgs) fs).2 =
      .error (.malformedManifest p.name) := by
    rw [haff, hfail]
  rw [runJump_eq_error hne herr rOk]
  refine ⟨rfl, ?_⟩
  rw [haff, hfail]
  simp

/-- C9 witness: a dry run over a sound package followed by a malformed one
aborts with the malformed package's name. -/
theorem dry_run_validates_manifests_witness :
    (resolveAffected changedABC [pkgA, pkgB, pkgC] = [pkgA] ++ pkgB :: [pkgC]) ∧
    (∀ q ∈ [pkgA], (setVer verTwo (parseDoc (sampleFS q.manifestPath))).isSome = true) ∧
    (setVer verTwo (parseDoc (sampleFS pkgB.manifestPath)) = none) ∧
    (runJump verTwo true changedABC [pkgA, pkgB, pkgC] sampleFS true).2 =
      .error (.malformedManifest "b") := by
  refine ⟨by decide, by decide, by decide, ?_⟩
  exact (dry_run_validates_manifests verTwo changedABC [pkgA, pkgB, pkgC] sampleFS true
    [pkgA] pkgB [pkgC] (by decide) (by decide) (by decide)).1

/-- C6: when the per-package loop reaches a package whose manifest lacks the
`[package]` table or the `version` key, the loop stops with the fatal
`MalformedManifest` outcome right after reading that manifest: the trace is
exactly the preceding packages' events plus that read, no later package is
touched, and the whole run ends in that error. -/
theorem malformed_manifest_fail_fast (v : List Char) (dr : Bool) (changed : List FsPath)
    (pkgs : List Package) (fs : FS) (rOk : Bool) (pre : List Package) (p : Package)
    (post : List Package) (fs₁ : FS) (hc : Bool)
    (haff : resolveAffected changed pkgs = pre ++ p :: post)
    (hok : (processPackages v dr pre fs).2 = .ok (fs₁, hc))
    (hfail : setVer v (parseDoc (fs₁ p.manifestPath)) = none) :
    processPackages v dr (pre ++ p :: post) fs =
      ((processPackages v dr pre fs).1 ++ [.readManifest p.manifestPath],
       .error (.malformedManifest p.name)) ∧
    (runJump v dr changed pkgs fs rOk).2 = .error (.malformedManifest p.name) := by
  have hfl := process_append_fail v dr p post pre fs fs₁ hc hok hfail
  refine ⟨hfl, ?_⟩
  have hne : (resolveAffected changed pkgs).isEmpty = false :=
    List.isEmpty_eq_false.mpr (by rw [haff]; simp)
  have herr : (processPackages v dr (resolveAffected changed pkgs) fs).2 =
      .error (.malformedManifest p.name) := by
    rw [haff, hfl]
  rw [runJump_eq_error hne herr rOk]

/-- C6 witness: with a sound first package and a malformed second one, the
loop over all three packages stops after reading the second. -/
theorem malformed_manifest_fail_fast_witness :
    (resolveAffected changedABC [pkgA, pkgB, pkgC] = [pkgA] ++ pkgB :: [pkgC]) ∧
    ((processPackages verTwo true [pkgA] sampleFS).2 = .ok (sampleFS, false)) ∧
    (setVer verTwo (parseDoc (sampleFS pkgB.manifestPath)) = none) ∧
    processPackages verTwo true ([pkgA] ++ pkgB :: [pkgC]) sampleFS =
      ((processPackages verTwo true [pkgA] sampleFS).1 ++
        [.readManifest pkgB.manifestPath],
       .error (.malformedManifest "b")) := by
  refine ⟨by decide, rfl, by decide, ?_⟩
  exact (malformed_manifest_fail_fast verTwo true changedABC [pkgA, pkgB, pkgC] sampleFS
    true [pkgA] pkgB [pkgC] sampleFS false (by decide) rfl (by decide)).1

/-- C10: in a real (non-dry) run with a nonempty affected set whose writes
all succeed, `has_change` is true, every affected package's manifest path is
written, and the lock refresh is invoked — with no hypothesis that any
manifest's version actually differs from the requested one. -/
theorem wet_run_unconditional_write_refresh (v : List Char) (changed : List FsPath)
    (pkgs : List Package) (fs fs₁ : FS) (hc : Bool) (rOk : Bool)
    (hok : (processPackages v false (resolveAffected changed pkgs) fs).2 = .ok (fs₁, hc))
    (hne : resolveAffected changed pkgs ≠ []) :
    hc = true ∧
    (∀ p ∈ resolveAffected changed pkgs, ∃ c,
      Ev.writeManifest p.manifestPath c ∈ (runJump v false changed pkgs fs rOk).1) ∧
    Ev.refreshLock ∈ (runJump v false changed pkgs fs rOk).1 := by
  have hctrue : hc = true := by
    rcases haff : resolveAffected changed pkgs with _ | ⟨p0, rest0⟩
    · exact absurd haff hne
    · rw [haff] at hok
      exact process_wet_head_hc hok
  subst hctrue
  have hne' : (resolveAffected changed pkgs).isEmpty = false :=
    List.isEmpty_eq_false.mpr hne
  have hwr := process_wet_writes v (resolveAffected changed pkgs) fs fs₁ true hok
  cases rOk
  · rw [runJump_eq_ok_refresh_fail hne' hok]
    refine ⟨rfl, ?_, by simp⟩
    intro p hp
    obtain ⟨c, hcm⟩ := hwr p hp
    exact ⟨c, List.mem_append.2 (Or.inl hcm)⟩
  · rw [runJump_eq_ok_refresh hne' hok]
    refine ⟨rfl, ?_, by simp⟩
    intro p hp
    obtain ⟨c, hcm⟩ := hwr p hp
    exact ⟨c, List.mem_append.2 (Or.inl hcm)⟩

/-- C10 witness: a manifest already at the requested version is rewritten
with identical bytes, and the lock refresh still fires. -/
theorem wet_run_unconditional_write_refresh_witness :
    ((processPackages verTwo false (resolveAffected changedA [pkgA]) sampleFS2).2 =
      .ok (fsWrite sampleFS2 pkgA.manifestPath sampleManifestAtTwo, true)) ∧
    (resolveAffected changedA [pkgA] ≠ []) ∧
    (sampleFS2 pkgA.manifestPath = sampleManifestAtTwo) ∧
    Ev.writeManifest pkgA.manifestPath sampleManifestAtTwo ∈
      (runJump verTwo false changedA [pkgA] sampleFS2 true).1 ∧
    Ev.refreshLock ∈ (runJump verTwo false changedA [pkgA] sampleFS2 true).1 := by
  refine ⟨rfl, by decide, by decide, by decide, ?_⟩
  exact (wet_run_unconditional_write_refresh verTwo changedA [pkgA] sampleFS2
    (fsWrite sampleFS2 pkgA.manifestPath sampleManifestAtTwo) true true rfl
    (by decide)).2.2

/-- C2 counterexample: on a manifest whose version line carries a trailing
comment, the rewrite does not leave every byte outside the version value
unchanged — the value's trailing decor (the comment) is destroyed, so no
common prefix/suffix decomposition around the old and new value exists. -/
theorem version_update_not_value_only_cx :
    applyWrite verNew sampleManifestCommented = some sampleManifestCommentedOut ∧
    ∀ P S : List Char,
      ¬(sampleManifestCommented = P ++ ("\"0.1.0\"").data ++ S ∧
        sampleManifestCommentedOut = P ++ ("\"1.2.3\"").data ++ S) := by
  refine ⟨by decide, ?_⟩
  rintro P S ⟨h1, h2⟩
  have l1 := congrArg List.length h1
  have l2 := congrArg List.length h2
  have e1 : sampleManifestCommented.length = 74 := by decide
  have e2 : sampleManifestCommentedOut.length = 67 := by decide
  have e3 : (("\"0.1.0\"").data).length = 7 := by decide
  have e4 : (("\"1.2.3\"").data).length = 7 := by decide
  rw [e1, List.length_append, List.length_append, e3] at l1
  rw [e2, List.length_append, List.length_append, e4] at l2
  omega

/-- C2 amended: a version update preserves every byte outside the version
item (the value together with its decor: the whitespace after `=` and the
trailing whitespace/comment of that line); the item itself is replaced by
the default-formatted new value.  When the old item's decor is already the
default, only the value's bytes change. -/
theorem version_update_frame (v s : List Char) (a b : List Line) (k : KeyVal)
    (hloc : locateVersion (parseDoc s) = some (a, k, b)) :
    ∃ P S : List Char,
      s = P ++ (k.beforeVal ++ (k.valRepr ++ k.trailing)) ++ S ∧
      applyWrite v s = some (P ++ ([' '] ++ (quoteStr v ++ [])) ++ S) := by
  obtain ⟨hdec, hane, hkey, _⟩ := locateVersion_spec hloc
  rcases a with _ | ⟨x, a'⟩
  · exact absurd rfl hane
  · refine ⟨renderDoc (x :: a') ++ '\n' :: (k.lead ++ (k.key ++ (k.afterKey ++ ['=']))),
      joinAux (b.map renderLine), ?_, ?_⟩
    · conv_lhs => rw [← renderDoc_parseDoc s]
      conv_lhs => rw [hdec]
      rw [renderDoc_decomp (x :: a') k b x a' rfl]
    · rw [applyWrite_eq_of_locate hloc,
        renderDoc_decomp (x :: a') (setKV v k) b x a' rfl]
      rfl

/-- C2 amended witness: on a plainly formatted manifest, the decomposition
exists and the rewrite changes only the value. -/
theorem version_update_frame_witness :
    locateVersion (parseDoc sampleManifest) =
      some ([Line.header [] ("package").data [],
             Line.kv ⟨[], ("name").data, [' '], [' '], ("\"a\"").data, []⟩],
            ⟨[], ("version").data, [' '], [' '], ("\"0.1.0\"").data, []⟩,
            [Line.blank []]) ∧
    ∃ P S : List Char,
      sampleManifest = P ++ ([' '] ++ (("\"0.1.0\"").data ++ [])) ++ S ∧
      applyWrite verNew sampleManifest = some (P ++ ([' '] ++ (quoteStr verNew ++ [])) ++ S) := by
  refine ⟨by decide, ?_⟩
  exact version_update_frame verNew sampleManifest
    [Line.header [] ("package").data [],
     Line.kv ⟨[], ("name").data, [' '], [' '], ("\"a\"").data, []⟩]
    [Line.blank []]
    ⟨[], ("version").data, [' '], [' '], ("\"0.1.0\"").data, []⟩ (by decide)

/-- C3: writing the same version twice is idempotent: if the first rewrite
of a manifest succeeds and produces some bytes, rewriting those bytes with
the same version succeeds and reproduces them exactly (for version strings
without quote or newline characters, which need no escaping). -/
theorem set_version_write_idempotent (v s b1 : List Char)
    (h : applyWrite v s = some b1) (hq : '"' ∉ v) (hn : '\n' ∉ v) :
    applyWrite v b1 = some b1 :=
  applyWrite_applyWrite h hq hn

/-- C3 witness: a concrete double write at version `2.0.0`. -/
theorem set_version_write_idempotent_witness :
    applyWrite verTwo sampleManifest = some sampleManifestWritten ∧
    ('"' ∉ verTwo) ∧ ('\n' ∉ verTwo) ∧
    applyWrite verTwo sampleManifestWritten = some sampleManifestWritten := by
  refine ⟨by decide, by decide, by decide, ?_⟩
  exact set_version_write_idempotent verTwo sampleManifest sampleManifestWritten
    (by decide) (by decide) (by decide)

end CargoJump
